import Mathlib

/-!
Verification development for the HanziIDSComponentExplorer core engine
(`hanzi_core.py`).  Python strings are modelled as `List Char` (`Str`), the
character table (a Python `dict`) as an association list whose iteration
order is its list order, and `dict.get` as first-match lookup.  Machine-level
details that the claims do not touch (gzip/pickle loading, the Glyphs UI)
are out of scope.  All functions are total; Python's dynamic exceptions
cannot occur on the modelled paths.
-/

set_option maxHeartbeats 1000000

abbrev Str := List Char

/-- Whitespace for Python `str` semantics: the characters matched by `\s`
in a `str` regular expression and stripped by `str.strip()` / split by
`str.split()`.  (ASCII whitespace plus the Unicode whitespace code points.) -/
def pyIsSpace (c : Char) : Bool :=
  c ∈ ([' ', '\t', '\n', '\r', '\x0b', '\x0c',
        '\x1c', '\x1d', '\x1e', '\x1f', '\x85', '\xa0',
        ' ', ' ', ' ', ' ', ' ', ' ',
        ' ', ' ', ' ', ' ', ' ', ' ',
        ' ', ' ', ' ', ' ', '　'] : List Char)

/-- Python `s.startswith(pat)` on char lists (second argument is the pattern). -/
def strStartsWith : Str → Str → Bool
  | _, [] => true
  | [], _ :: _ => false
  | a :: s, b :: t => a == b && strStartsWith s t

/-- Python `pat in s` (substring containment; the empty pattern is contained
in every string). -/
def pyInStr (pat : Str) : Str → Bool
  | [] => pat.isEmpty
  | a :: rest => strStartsWith (a :: rest) pat || pyInStr pat rest

/-- Python `s.replace(pat, rep)`: replace every non-overlapping occurrence,
scanning left to right.  (All call sites in the source use a non-empty
pattern, which this models.) -/
def pyReplace (s pat rep : Str) : Str :=
  match s with
  | [] => []
  | a :: rest =>
    if !pat.isEmpty && strStartsWith (a :: rest) pat then
      rep ++ pyReplace ((a :: rest).drop pat.length) pat rep
    else
      a :: pyReplace rest pat rep
termination_by s.length
decreasing_by
  · simp only [List.length_drop, List.length_cons]
    rename_i h
    rw [Bool.and_eq_true, Bool.not_eq_true'] at h
    have hp : pat.length ≠ 0 := by
      simpa [List.isEmpty_iff, List.length_eq_zero] using h.1
    omega
  · simp

/-- Python `s.strip()`: drop whitespace from both ends. -/
def pyStrip (s : Str) : Str :=
  ((s.dropWhile pyIsSpace).reverse.dropWhile pyIsSpace).reverse

/-- Helper for `pySplit`: split off the longest non-whitespace run. -/
def takeNonSpace : Str → Str × Str
  | [] => ([], [])
  | c :: rest =>
    if pyIsSpace c then ([], c :: rest)
    else
      let p := takeNonSpace rest
      (c :: p.1, p.2)

theorem takeNonSpace_rest_le (s : Str) : (takeNonSpace s).2.length ≤ s.length := by
  induction s with
  | nil => simp [takeNonSpace]
  | cons c rest ih =>
    simp only [takeNonSpace]
    split
    · simp
    · simpa using Nat.le_succ_of_le ih

/-- Python `s.split()`: the maximal non-whitespace runs of `s`, in order. -/
def pySplit : Str → List Str
  | [] => []
  | c :: rest =>
    if pyIsSpace c then pySplit rest
    else
      let p := takeNonSpace rest
      (c :: p.1) :: pySplit p.2
termination_by s => s.length
decreasing_by
  · simp
  · have := takeNonSpace_rest_le rest
    simp only [List.length_cons]
    omega

/-- Python `s.upper()` restricted to the ASCII range (the repository's
unicode fields and notation prefixes are ASCII; CJK characters are fixed
points of `upper` in both models). -/
def pyUpper (s : Str) : Str := s.map Char.toUpper

/-- Lexicographic strict order on strings by code point, as used by Python
`sorted` on `str`. -/
def strLt : Str → Str → Bool
  | [], [] => false
  | [], _ :: _ => true
  | _ :: _, [] => false
  | a :: s, b :: t => if a < b then true else if b < a then false else strLt s t

/-- Insertion of a string into a `strLt`-sorted list. -/
def insortStr (x : Str) : List Str → List Str
  | [] => [x]
  | y :: rest => if strLt x y then x :: y :: rest else y :: insortStr x rest

/-- Sorting a list of strings, as Python `sorted` does on distinct strings. -/
def sortStrs : List Str → List Str
  | [] => []
  | x :: rest => insortStr x (sortStrs rest)

/-- Keep the first occurrence of each element (models passing a list through
`set(...)` when the result is subsequently sorted, so that iteration order
is irrelevant). -/
def dedupFirst : List Str → List Str
  | [] => []
  | x :: rest => if (dedupFirst rest).contains x then dedupFirst rest else x :: dedupFirst rest

/-! ### IDSParser (`parse_ids`, regex `&[^;]+;|[⿰…〾]|\S`) -/

/-- The 13 Ideographic Description Characters of the source's `IDC_CHARS`. -/
def IDC_LIST : Str :=
  ['⿰', '⿱', '⿲', '⿳', '⿴', '⿵', '⿶', '⿷', '⿸', '⿹', '⿺', '⿻', '〾']

def isIDC (c : Char) : Bool := IDC_LIST.contains c

/-- Split a string at its first `';'`: `some (body, rest)` with
`s = body ++ ';' :: rest`, or `none` when `s` has no `';'`. -/
def splitAtSemi : Str → Option (Str × Str)
  | [] => none
  | c :: rest =>
    if c = ';' then some ([], rest)
    else
      match splitAtSemi rest with
      | some (body, r) => some (c :: body, r)
      | none => none

/-- Attempt of the regex alternative `&[^;]+;` immediately after a `'&'`:
a non-empty `';'`-free body followed by `';'`. -/
def takeEntity (s : Str) : Option (Str × Str) :=
  match splitAtSemi s with
  | some (body, r) => if body.isEmpty then none else some (body, r)
  | none => none

theorem splitAtSemi_eq (s body r : Str) (h : splitAtSemi s = some (body, r)) :
    s = body ++ ';' :: r ∧ ';' ∉ body := by
  induction s generalizing body with
  | nil => simp [splitAtSemi] at h
  | cons c rest ih =>
    by_cases hc : c = ';'
    · simp [splitAtSemi, hc] at h
      simp [hc, h.1, h.2]
    · simp only [splitAtSemi, if_neg hc] at h
      cases hr : splitAtSemi rest with
      | none => simp [hr] at h
      | some p =>
        obtain ⟨b2, r2⟩ := p
        simp only [hr] at h
        obtain ⟨hb, hr2⟩ : c :: b2 = body ∧ r2 = r := by
          constructor <;> [skip; skip] <;> cases h <;> rfl
        obtain ⟨h1, h2⟩ := ih b2 (by rw [hr, hr2])
        subst hb
        constructor
        · simp [h1, hr2]
        · simp [h2, hc, Ne.symm hc]

theorem splitAtSemi_of_eq (body r : Str) (hb : ';' ∉ body) :
    splitAtSemi (body ++ ';' :: r) = some (body, r) := by
  induction body with
  | nil => simp [splitAtSemi]
  | cons c rest ih =>
    have hc : c ≠ ';' := by intro h; exact hb (by simp [h])
    have hrest : ';' ∉ rest := fun h => hb (by simp [h])
    simp [splitAtSemi, hc, ih hrest]

theorem takeEntity_eq (s body r : Str) (h : takeEntity s = some (body, r)) :
    s = body ++ ';' :: r ∧ body ≠ [] ∧ ';' ∉ body := by
  unfold takeEntity at h
  cases hs : splitAtSemi s with
  | none => simp [hs] at h
  | some p =>
    obtain ⟨b2, r2⟩ := p
    simp only [hs] at h
    by_cases hb : b2.isEmpty = true
    · simp [hb] at h
    · rw [if_neg hb] at h
      obtain ⟨h1, h2⟩ : b2 = body ∧ r2 = r := by
        constructor <;> cases h <;> rfl
      rw [h1, h2] at hs
      rw [h1] at hb
      have := splitAtSemi_eq s body r hs
      exact ⟨this.1, by simpa [List.isEmpty_iff] using hb, this.2⟩

theorem takeEntity_of_eq (body r : Str) (hne : body ≠ []) (hb : ';' ∉ body) :
    takeEntity (body ++ ';' :: r) = some (body, r) := by
  unfold takeEntity
  rw [splitAtSemi_of_eq body r hb]
  simp [List.isEmpty_iff, hne]

theorem takeEntity_rest_lt (s body r : Str) (h : takeEntity s = some (body, r)) :
    r.length < s.length := by
  obtain ⟨h1, h2, _⟩ := takeEntity_eq s body r h
  subst h1
  simp only [List.length_append, List.length_cons]
  omega

/-- The tokenizer `split_special_chars` from `parse_ids`: Python
`re.findall(r'&[^;]+;|[⿰⿱⿲⿳⿴⿵⿶⿷⿸⿹⿺⿻〾]|\S', s)`.  At each position the
alternatives are tried in order; a failed position (necessarily whitespace)
is skipped. -/
def split_special_chars : Str → List Str
  | [] => []
  | c :: rest =>
    if c = '&' then
      match h : takeEntity rest with
      | some (body, r) => ('&' :: body ++ [';']) :: split_special_chars r
      | none => [c] :: split_special_chars rest
    else if isIDC c then [c] :: split_special_chars rest
    else if pyIsSpace c then split_special_chars rest
    else [c] :: split_special_chars rest
termination_by s => s.length
decreasing_by
  · have := takeEntity_rest_lt rest _ _ h
    simp only [List.length_cons]
    omega
  all_goals simp

/-- `parse_ids`: a single IDS string gives a one-element outer list, a list
of IDS strings is tokenized element-wise. -/
def parse_ids : Str ⊕ List Str → List (List Str)
  | .inr l => l.map split_special_chars
  | .inl s => [split_special_chars s]

/-! ### CharacterTable data model -/

/-- One record of the converted table (`_convert_format`): the `char` field
always equals the key and is omitted; `unicode`, `ids_1`, `ids_2` are strings,
empty when absent.  The `'unicode' in data` test of `get_data` is always true
for converted records. -/
structure CharRec where
  unicode : Str
  ids_1 : Str
  ids_2 : Str
deriving DecidableEq, Repr

/-- The character table: a Python `dict` modelled as an association list in
insertion order; key uniqueness (a `dict` invariant) is assumed where a claim
needs it. -/
abbrev Db := List (Str × CharRec)

/-- Python `self.db.get(key)` / `key in self.db`. -/
def dbGet (db : Db) (k : Str) : Option CharRec :=
  (db.find? (fun p => p.1 == k)).map Prod.snd

/-! ### Lookup (`get_data`) -/

def isHexDigit (c : Char) : Bool :=
  c ∈ (['0','1','2','3','4','5','6','7','8','9','A','B','C','D','E','F','a','b','c','d','e','f'] : List Char)

/-- The `is_unicode_format` test of `get_data`: a `U+`/`uni`/`u` prefix or a
bare 4-5 digit hex string. -/
def isUnicodeFormat (s : Str) : Bool :=
  strStartsWith s ['U','+'] || strStartsWith s ['u','n','i'] || strStartsWith s ['u'] ||
  ((s.length == 4 || s.length == 5) && s.all isHexDigit)

/-- The multi-character branch of `get_data`: the first non-whitespace
character present in the table, with its record. -/
def firstValidChar (db : Db) : Str → Option (Str × CharRec)
  | [] => none
  | c :: rest =>
    match (if pyIsSpace c then none else dbGet db [c]) with
    | some d => some ([c], d)
    | none => firstValidChar db rest

/-- The Unicode-notation normalization inside `get_data`: uppercase, then
strip `U+`/`UNI` (every occurrence, via `str.replace`) or a single leading
`U`. -/
def normCode (s : Str) : Str :=
  let n := pyUpper s
  if strStartsWith n ['U','+'] || strStartsWith n ['U','N','I'] then
    pyReplace (pyReplace n ['U','+'] []) ['U','N','I'] []
  else if strStartsWith n ['U'] then n.drop 1
  else n

/-- `get_data`: resolve a character or Unicode notation to `{char: record}`,
modelled as `Option (key, record)`; `none` is the empty-dict "not found"
result. -/
def get_data (db : Db) (s : Str) : Option (Str × CharRec) :=
  if s.length > 1 && !isUnicodeFormat s then
    firstValidChar db s
  else
    match dbGet db s with
    | some d => some (s, d)
    | none => db.find? (fun p => pyUpper p.2.unicode == normCode s)

/-! ### Decomposer (`decompose` / `_decompose_recursive`) -/

/-- The `"｜   " * level` indentation run. -/
def repPre : Nat → Str
  | 0 => []
  | n + 1 => '｜' :: ' ' :: ' ' :: ' ' :: repPre n

def BRANCH_LAST : Str := ['└', '─', ' ']
def BRANCH_MID : Str := ['├', '─', ' ']

/-- The `" (達到最大深度)"` depth-limit suffix. -/
def DEPTH_MARK : Str := [' ', '(', '達', '到', '最', '大', '深', '度', ')']

/-- The `"或"` separator between alternative decompositions. -/
def SEP_OR : Str := ['或']

/-- Prefix of a leaf entry: empty at the root, otherwise one indentation
level less plus the terminal branch glyph. -/
def leafPre (level : Nat) : Str :=
  if level = 0 then [] else repPre (level - 1) ++ BRANCH_LAST

/-- The `ids_list` selection of `_decompose_recursive` by `variant_index`
(-1 = both variants, 0 = `ids_1` falling back to `ids_2`, 1 = the reverse). -/
def idsSelection (data : CharRec) (vi : Int) : List Str :=
  if vi = -1 then
    (if data.ids_1 ≠ [] then [data.ids_1] else []) ++
    (if data.ids_2 ≠ [] then [data.ids_2] else [])
  else if vi = 0 then
    (if data.ids_1 ≠ [] then [data.ids_1] else if data.ids_2 ≠ [] then [data.ids_2] else [])
  else if vi = 1 then
    (if data.ids_2 ≠ [] then [data.ids_2] else if data.ids_1 ≠ [] then [data.ids_1] else [])
  else []

mutual

/-- `_decompose_recursive(char, level, deep, max_depth, variant_index)`. -/
def decomposeRecur (db : Db) (char : Str) (level : Nat) (deep : Bool)
    (max_depth : Nat) (vi : Int) : List (Str × Str) :=
  if h : max_depth ≤ level then
    [(repPre level ++ BRANCH_LAST, char ++ DEPTH_MARK)]
  else
    match dbGet db char with
    | none => [(leafPre level, char)]
    | some data =>
      let ids_list := idsSelection data vi
      if ids_list = [] then [(leafPre level, char)]
      else if ids_list.all (fun ids => IDC_LIST.all (fun idc => !ids.contains idc)) then
        [(leafPre level, char)]
      else
        ([], char) :: decomposeIdsList db ids_list char level deep max_depth vi (by omega)
termination_by (max_depth - level, 2, 0)

/-- The `for idx, ids in enumerate(ids_list)` loop, including the `"或"`
separators between variants. -/
def decomposeIdsList (db : Db) (idsList : List Str) (char : Str) (level : Nat)
    (deep : Bool) (max_depth : Nat) (vi : Int) (h : level < max_depth) :
    List (Str × Str) :=
  match idsList with
  | [] => []
  | ids :: rest =>
    let chunk :=
      if ids = char then [(repPre level, char)]
      else
        (repPre level, [ids.headD ' ']) ::
          decomposeComps db ((split_special_chars ids).drop 1) level deep max_depth vi h
    let sep := if rest ≠ [] then [(repPre level, SEP_OR)] else []
    chunk ++ sep ++ decomposeIdsList db rest char level deep max_depth vi h
termination_by (max_depth - level, 1, idsList.length)

/-- The `for i, comp in enumerate(components)` loop: each component is
emitted with its branch glyph, and expandable components are recursed into
one level deeper, splicing in the child's entries minus its first entry. -/
def decomposeComps (db : Db) (comps : List Str) (level : Nat) (deep : Bool)
    (max_depth : Nat) (vi : Int) (h : level < max_depth) : List (Str × Str) :=
  match comps with
  | [] => []
  | comp :: rest =>
    let pre := repPre level ++ (if rest = [] then BRANCH_LAST else BRANCH_MID)
    let entry :=
      if deep && !(comp.headD ' ' == '&' && comp ≠ []) && !pyInStr comp IDC_LIST then
        match dbGet db comp with
        | some sub =>
          if sub.ids_1 ≠ [] ∨ sub.ids_2 ≠ [] then
            (pre, comp) :: (decomposeRecur db comp (level + 1) deep max_depth vi).drop 1
          else [(pre, comp)]
        | none => [(pre, comp)]
      else [(pre, comp)]
    entry ++ decomposeComps db rest level deep max_depth vi h
termination_by (max_depth - level, 0, comps.length)

end

/-- `decompose(char, max_depth, variant_index)`. -/
def decompose (db : Db) (char : Str) (max_depth : Nat) (vi : Int) :
    List (Str × Str) :=
  decomposeRecur db char 0 true max_depth vi

/-! ### SimilarityEngine — sister characters (`find_sister_characters`) -/

/-- Category key `"結構相同部件同位"` (same structure, same-position component). -/
def CAT_SAMEPOS : Str := ['結', '構', '相', '同', '部', '件', '同', '位']

/-- Category key `"結構部件相同"` (same structure, shared components). -/
def CAT_SAMESTRUCT : Str := ['結', '構', '部', '件', '相', '同']

/-- Category key `"部件相同"` (shared components only). -/
def CAT_SHARED : Str := ['部', '件', '相', '同']

/-- Category key `"獨體字"` (independent/atomic character). -/
def CAT_ATOM : Str := ['獨', '體', '字']

/-- A sister-classification result: category → group key → characters,
a two-level dict in insertion order. -/
abbrev SisterDict := List (Str × List (Str × List Str))

/-- `''.join([c for c in ids if c in IDC_CHARS])`. -/
def structureOf (ids : Str) : Str := ids.filter isIDC

/-- `[c for c in self.parse_ids(ids)[0] if c not in IDC_CHARS]` — note that
`c not in IDC_CHARS` is a substring test on the token. -/
def componentsOf (ids : Str) : List Str :=
  (split_special_chars ids).filter (fun t => !pyInStr t IDC_LIST)

/-- `''.join(sorted(set(target_components) & set(components)))`, as a list of
component strings before joining: the distinct common components in Python
string order. -/
def commonComponents (tC comps : List Str) : List Str :=
  sortStrs (dedupFirst (tC.filter (fun t => comps.contains t)))

/-- `dict.setdefault(key, []).append(x)` on a group dict. -/
def addGroup : List (Str × List Str) → Str → Str → List (Str × List Str)
  | [], key, x => [(key, [x])]
  | (k, l) :: rest, key, x =>
    if k = key then (k, l ++ [x]) :: rest else (k, l) :: addGroup rest key x

/-- `sisters[cat].setdefault(key, []).append(x)`; the three categories are
always present when this is called. -/
def addSister : SisterDict → Str → Str → Str → SisterDict
  | [], _, _, _ => []
  | (c, g) :: rest, cat, key, x =>
    if c = cat then (c, addGroup g key x) :: rest
    else (c, g) :: addSister rest cat key x

/-- The match of one candidate IDS variant against the target structure and
components: `some (category, group key)` when the variant files the
candidate, `none` otherwise (single-component variants are skipped). -/
def matchVariant (tS : Str) (tC : List Str) (ids : Str) : Option (Str × Str) :=
  let struct := structureOf ids
  let comps := componentsOf ids
  if comps.length = 1 then none
  else if struct = tS then
    let samePos := (List.zip tC comps).enum.filterMap
      (fun p => if p.2.1 = p.2.2 then some (p.1 + 1) else none)
    if samePos ≠ [] then
      some (CAT_SAMEPOS, (samePos.map (fun pos => tC.getD (pos - 1) [])).flatten)
    else if commonComponents tC comps ≠ [] then
      some (CAT_SAMESTRUCT, (commonComponents tC comps).flatten)
    else none
  else if commonComponents tC comps ≠ [] then
    some (CAT_SHARED, (commonComponents tC comps).flatten)
  else none

/-- The `for ids in ids_variants` loop with its `found_sister` flag: the
first variant that produces a match decides the (category, key). -/
def firstVariantMatch (tS : Str) (tC : List Str) : List Str → Option (Str × Str)
  | [] => none
  | ids :: rest =>
    match matchVariant tS tC ids with
    | some r => some r
    | none => firstVariantMatch tS tC rest

/-- The body of `_find_sister_by_ids`'s `for c, data in self.db.items()`
loop for one table entry. -/
def sisterStep (char : Str) (tS : Str) (tC : List Str)
    (charset : Option (List Str)) (acc : SisterDict) (e : Str × CharRec) :
    SisterDict :=
  if e.1 = char then acc
  else if (match charset with | some cs => !cs.contains e.1 | none => false) then acc
  else
    let ids_variants :=
      (if e.2.ids_1 ≠ [] then [e.2.ids_1] else []) ++
      (if e.2.ids_2 ≠ [] then [e.2.ids_2] else [])
    if ids_variants = [] then acc
    else
      match firstVariantMatch tS tC ids_variants with
      | some (cat, key) => addSister acc cat key e.1
      | none => acc

/-- The initial three-category dict of `_find_sister_by_ids` (returned with
empty groups when nothing matches). -/
def initSisters : SisterDict := [(CAT_SAMEPOS, []), (CAT_SAMESTRUCT, []), (CAT_SHARED, [])]

/-- `_find_sister_by_ids(char, target_ids, charset)`. -/
def sisterByIds (db : Db) (char : Str) (target_ids : Str)
    (charset : Option (List Str)) : SisterDict :=
  if target_ids = [] then []
  else
    let tS := structureOf target_ids
    let tC := componentsOf target_ids
    if tC.length ≤ 1 then [(CAT_ATOM, [(char, [char])])]
    else db.foldl (sisterStep char tS tC charset) initSisters

/-- Python dict key membership `cat in result`. -/
def hasCat (d : SisterDict) (cat : Str) : Bool := d.any (fun p => p.1 == cat)

/-- The result of `find_sister_characters`: either a plain category dict, or
(`variant_index == -1` with two non-atomic sub-results) the wrapper
`{"拆法1結果": r1, "拆法2結果": r2}`, which nests differently-typed values
and is therefore a separate constructor. -/
inductive SisterRes where
  | plain : SisterDict → SisterRes
  | merged : SisterDict → SisterDict → SisterRes
deriving DecidableEq, Repr

/-- `_merge_sister_results(result_1, result_2)`. -/
def merge_sister_results (r1 r2 : SisterDict) : SisterRes :=
  if hasCat r1 CAT_ATOM then
    if r2 ≠ [] && !hasCat r2 CAT_ATOM then .plain r2 else .plain r1
  else if hasCat r2 CAT_ATOM then .plain r1
  else .merged r1 r2

/-- The `target_ids` selection of `find_sister_characters` for a
non-merging `variant_index` (0 = `ids_1` or else `ids_2`, 1 = `ids_2` or
else `ids_1`, anything else like 0). -/
def sisterTargetIds (data : CharRec) (vi : Int) : Str :=
  if vi = 0 then (if data.ids_1 ≠ [] then data.ids_1 else data.ids_2)
  else if vi = 1 then (if data.ids_2 ≠ [] then data.ids_2 else data.ids_1)
  else (if data.ids_1 ≠ [] then data.ids_1 else data.ids_2)

/-- `find_sister_characters(char, charset, variant_index)`. -/
def find_sister_characters (db : Db) (char : Str) (charset : Option (List Str))
    (vi : Int) : SisterRes :=
  match dbGet db char with
  | none => .plain []
  | some data =>
    if vi = -1 then
      merge_sister_results (sisterByIds db char data.ids_1 charset)
        (sisterByIds db char data.ids_2 charset)
    else
      let target_ids := sisterTargetIds data vi
      if target_ids = [] then .plain []
      else .plain (sisterByIds db char target_ids charset)

/-! ### SimilarityEngine — derived characters (`find_derived_characters`) -/

/-- Membership of a token in `special_chars = set(IDC_CHARS)`: a set of
13 one-character strings, so a token is special exactly when it is a single
IDC character (contrast with the substring test `comp not in IDC_CHARS`
used by the decomposer). -/
def isSpecial (s : Str) : Bool :=
  match s with
  | [c] => isIDC c
  | _ => false

/-- The mutable state of `process_component`: the `visited_components` and
`decomposed_parts` sets, modelled as lists queried only through membership.
(`structure_patterns` and `component_groups` are also filled by the source
but never read by any consumer, and are omitted.) -/
structure DState where
  visited : List Str
  parts : List Str
deriving Repr

/-- Set `add`. -/
def addSet (l : List Str) (x : Str) : List Str :=
  if l.contains x then l else l ++ [x]

mutual

/-- `process_component(component, depth)` of `find_derived_characters`
(MAX_DEPTH = 4, with the visited-set guard). -/
def processComponent (db : Db) (component : Str) (depth : Nat) (st : DState) :
    DState :=
  if h : 4 ≤ depth ∨ component ∈ st.visited then st
  else
    let st1 : DState := ⟨st.visited ++ [component], st.parts⟩
    let st2 : DState :=
      if component ≠ [] ∧ isSpecial component = false then
        ⟨st1.visited, addSet st1.parts component⟩
      else st1
    let subs := decompose db component 1 0
    if subs.isEmpty then st2
    else processSubs db subs depth st2 (by omega)
termination_by (4 - depth, 1, 0)

/-- The `for op, comp in sub_components` loop of `process_component`. -/
def processSubs (db : Db) (subs : List (Str × Str)) (depth : Nat) (st : DState)
    (h : depth < 4) : DState :=
  match subs with
  | [] => st
  | (_, comp) :: rest =>
    let st2 :=
      if isSpecial comp = false then
        let stA : DState := ⟨st.visited, addSet st.parts comp⟩
        if depth < 4 ∧ comp ∉ stA.visited then
          processComponent db comp (depth + 1) stA
        else stA
      else st
    processSubs db rest depth st2 h
termination_by (4 - depth, 0, subs.length)

end

/-- The per-candidate matching loop of `find_derived_characters`: collect the
set of components of `decomposed_parts` found among the candidate's direct
components or (one extra level) their direct sub-components. -/
def matchingComponents (db : Db) (parts : List Str)
    (target_components : List (Str × Str)) : List Str :=
  target_components.foldl
    (fun m pc =>
      if pc.2 ∈ parts ∧ isSpecial pc.2 = false then addSet m pc.2
      else
        (decompose db pc.2 1 0).foldl
          (fun m2 sc =>
            if sc.2 ∈ parts ∧ isSpecial sc.2 = false then addSet m2 sc.2 else m2)
          m)
    []

/-- The body of `find_derived_characters`'s main `for c, data in
self.db.items()` loop for one table entry. -/
def derivedStep (db : Db) (char : Str) (charset : Option (List Str))
    (parts : List Str) (groups : List (Str × List Str)) (e : Str × CharRec) :
    List (Str × List Str) :=
  if e.1 = char then groups
  else if (match charset with | some cs => !cs.contains e.1 | none => false) then groups
  else
    let target_components := decompose db e.1 1 0
    let matching := matchingComponents db parts target_components
    matching.foldl (fun g mc => addGroup g mc e.1) groups

/-- `find_derived_characters(char, charset)`.  (`initial_components` and
`target_structure` are computed by the source but never used; the
`try/except` cannot fire in this total model.) -/
def find_derived_characters (db : Db) (char : Str)
    (charset : Option (List Str)) : List (Str × List Str) :=
  let st0 := processComponent db char 0 ⟨[], []⟩
  db.foldl (derivedStep db char charset st0.parts) []

/-! ### Display-string helpers (`is_error_message`, `extract_character`) -/

def ERROR_NO_MATCH_FOUND : Str := ['未', '找', '到', '符', '合', '的', '字', '符']
def ERROR_UNKNOWN_CHAR : Str := ['未', '知', '字', '符']
def ERROR_SEARCH_FAILED : Str := ['搜', '尋', '失', '敗']

/-- The `error_indicators` list of `is_error_message`. -/
def errorIndicators : List Str :=
  [ERROR_NO_MATCH_FOUND, ERROR_UNKNOWN_CHAR, ERROR_SEARCH_FAILED,
   ['未', '找', '到'], ['無', '法'], ['錯', '誤'],
   ['(', '達', '到', '最', '大', '深', '度', ')'],
   ['達', '到', '最', '大', '深', '度']]

/-- `is_error_message(text)`. -/
def is_error_message (text : Str) : Bool :=
  if text = [] || pyStrip text = [] then true
  else errorIndicators.any (fun ind => pyInStr ind text)

/-- `extract_character(text)`: strip the depth-limit annotation or the
tree-drawing glyphs from a display line and recover the character. -/
def extract_character (text : Str) : Option Str :=
  if text = [] || pyStrip text = [] then none
  else
    let afterMark : Option Str :=
      if pyInStr DEPTH_MARK text then
        let char := pyStrip (pyReplace text DEPTH_MARK [])
        if char ≠ [] && !is_error_message char then some char else none
      else none
    match afterMark with
    | some r => some r
    | none =>
      if is_error_message text then none
      else
        let cleaned :=
          pyReplace (pyReplace (pyReplace (pyReplace text ['｜'] [' '])
            ['├', '─'] [' ']) ['└', '─'] [' ']) [' '] [' ']
        let parts := ((pySplit cleaned).map pyStrip).filter (fun p => p ≠ [])
        match parts.getLast? with
        | some candidate =>
          if !is_error_message candidate then some candidate
          else
            let stripped := pyStrip text
            if stripped ≠ [] && !is_error_message stripped then some stripped else none
        | none =>
          let stripped := pyStrip text
          if stripped ≠ [] && !is_error_message stripped then some stripped else none

/-! ### Tokenizer lemmas -/

theorem pyIsSpace_not_IDC (c : Char) (h : pyIsSpace c = true) : isIDC c = false := by
  simp only [pyIsSpace, List.mem_cons, List.not_mem_nil, or_false, decide_eq_true_eq] at h
  rcases h with rfl | rfl | rfl | rfl | rfl | rfl | rfl | rfl | rfl | rfl | rfl | rfl | rfl |
    rfl | rfl | rfl | rfl | rfl | rfl | rfl | rfl | rfl | rfl | rfl | rfl | rfl | rfl | rfl |
    rfl <;> rfl

theorem split_cons_entity (rst bdy r : Str) (h : takeEntity rst = some (bdy, r)) :
    split_special_chars ('&' :: rst) = ('&' :: bdy ++ [';']) :: split_special_chars r := by
  rw [split_special_chars]
  split
  · split <;> simp_all
  · simp_all

theorem split_cons_amp (rst : Str) (h : takeEntity rst = none) :
    split_special_chars ('&' :: rst) = ['&'] :: split_special_chars rst := by
  rw [split_special_chars]
  split
  · split <;> simp_all
  · simp_all

theorem split_cons_char (c : Char) (rst : Str) (h1 : c ≠ '&') (h2 : pyIsSpace c = false) :
    split_special_chars (c :: rst) = [c] :: split_special_chars rst := by
  rw [split_special_chars]
  by_cases hc : isIDC c = true <;> simp [h1, h2, hc]

theorem split_cons_space (c : Char) (rst : Str) (h1 : c ≠ '&') (h2 : pyIsSpace c = true) :
    split_special_chars (c :: rst) = split_special_chars rst := by
  rw [split_special_chars]
  simp [h1, h2, pyIsSpace_not_IDC c h2]

/-- C9: `parse("⿰木木")` is `[[⿰, 木, 木]]`, a list input is tokenized
element-wise into an outer sequence of the same length, and the tokenizer
scans left to right emitting an entity reference `&…;` (body up to the
first `;`, non-empty, `;`-free) as one token, any other single
non-whitespace character (IDC or not) as one token, and dropping
whitespace.  `parse` is a total function, so it never raises. -/
theorem C9_parse_ids_tokenization :
    parse_ids (.inl ['⿰', '木', '木']) = [[['⿰'], ['木'], ['木']]] ∧
    parse_ids (.inr [['⿰', '木', '木'], ['⿱', '日', '生']]) =
      [[['⿰'], ['木'], ['木']], [['⿱'], ['日'], ['生']]] ∧
    (∀ l, parse_ids (.inr l) = l.map split_special_chars) ∧
    (∀ s, parse_ids (.inl s) = [split_special_chars s]) ∧
    split_special_chars [] = [] ∧
    (∀ rst bdy r, takeEntity rst = some (bdy, r) →
      split_special_chars ('&' :: rst) = ('&' :: bdy ++ [';']) :: split_special_chars r) ∧
    (∀ rst, takeEntity rst = none →
      split_special_chars ('&' :: rst) = ['&'] :: split_special_chars rst) ∧
    (∀ c rst, c ≠ '&' → pyIsSpace c = false →
      split_special_chars (c :: rst) = [c] :: split_special_chars rst) ∧
    (∀ c rst, c ≠ '&' → pyIsSpace c = true →
      split_special_chars (c :: rst) = split_special_chars rst) ∧
    (∀ rst bdy r, takeEntity rst = some (bdy, r) →
      rst = bdy ++ ';' :: r ∧ bdy ≠ [] ∧ ';' ∉ bdy) ∧
    (∀ bdy r, bdy ≠ [] → ';' ∉ bdy → takeEntity (bdy ++ ';' :: r) = some (bdy, r)) := by
  refine ⟨?_, ?_, fun l => rfl, fun s => rfl, by rw [split_special_chars],
    split_cons_entity, split_cons_amp, split_cons_char, split_cons_space,
    takeEntity_eq, fun bdy r h1 h2 => takeEntity_of_eq bdy r h1 h2⟩
  · simp [parse_ids, split_special_chars, takeEntity, splitAtSemi, isIDC, IDC_LIST, pyIsSpace]
  · simp [parse_ids, split_special_chars, takeEntity, splitAtSemi, isIDC, IDC_LIST, pyIsSpace]

/-- Witness for C9 at concrete inputs: an entity reference with a body, a
lone `&`, an ordinary character, and a whitespace character. -/
theorem C9_parse_ids_tokenization_witness :
    split_special_chars ['&', 'a', ';'] = [['&', 'a', ';']] ∧
    split_special_chars ['&', '木'] = [['&'], ['木']] ∧
    split_special_chars [' ', '木'] = [['木']] := by
  obtain ⟨-, -, -, -, hnil, hent, hamp, hchr, hsp, -, -⟩ := C9_parse_ids_tokenization
  refine ⟨?_, ?_, ?_⟩
  · rw [show (['&', 'a', ';'] : Str) = '&' :: ['a', ';'] from rfl,
      hent ['a', ';'] ['a'] [] (by simp [takeEntity, splitAtSemi]), hnil]
    decide
  · rw [show (['&', '木'] : Str) = '&' :: ['木'] from rfl,
      hamp ['木'] (by simp [takeEntity, splitAtSemi]),
      hchr '木' [] (by decide) (by decide), hnil]
  · rw [show ([' ', '木'] : Str) = ' ' :: ['木'] from rfl,
      hsp ' ' ['木'] (by decide) (by decide),
      hchr '木' [] (by decide) (by decide), hnil]

/-- Alternating whitespace/token segments: `ws` is expected to have one more
element than `ts`. -/
def interleave : List Str → List Str → Str
  | [], _ => []
  | w :: _, [] => w
  | w :: ws, t :: ts => w ++ t ++ interleave ws ts

theorem interleave_cons_head (c : Char) (w : Str) (ws : List Str) (ts : List Str) :
    interleave ((c :: w) :: ws) ts = c :: interleave (w :: ws) ts := by
  cases ts <;> simp [interleave]

/-- C10 (amended): the tokens of `parse_ids` are non-overlapping substrings
of the input appearing in input order, and the characters not covered by a
token are exactly whitespace; the input is recovered by interleaving the
tokens with whitespace segments.  (Concatenating the tokens equals the input
minus whitespace only when no entity-reference token itself contains
whitespace; see the counterexample.) -/
theorem C10_tokens_interleave (s : Str) : ∃ ws : List Str,
    ws.length = (split_special_chars s).length + 1 ∧
    (∀ w ∈ ws, ∀ a ∈ w, pyIsSpace a = true) ∧
    s = interleave ws (split_special_chars s) := by
  induction s using split_special_chars.induct with
  | case1 =>
    exact ⟨[[]], by simp [split_special_chars, interleave]⟩
  | case2 rst bdy r h ih =>
    obtain ⟨ws, hlen, hsp, hi⟩ := ih
    obtain ⟨hr, -, -⟩ := takeEntity_eq rst bdy r h
    refine ⟨[] :: ws, ?_, ?_, ?_⟩
    · simp [split_cons_entity rst bdy r h, hlen]
    · intro w hw
      rcases List.mem_cons.mp hw with rfl | hw2
      · simp
      · exact hsp w hw2
    · rw [split_cons_entity rst bdy r h]
      simp only [interleave, List.nil_append]
      rw [← hi, hr]
      simp
  | case3 rst h ih =>
    obtain ⟨ws, hlen, hsp, hi⟩ := ih
    refine ⟨[] :: ws, ?_, ?_, ?_⟩
    · simp [split_cons_amp rst h, hlen]
    · intro w hw
      rcases List.mem_cons.mp hw with rfl | hw2
      · simp
      · exact hsp w hw2
    · rw [split_cons_amp rst h]
      simp only [interleave, List.nil_append]
      rw [← hi]
      simp
  | case4 c rst h1 h2 ih =>
    obtain ⟨ws, hlen, hsp, hi⟩ := ih
    have h2' : pyIsSpace c = false := by
      by_contra hcon
      rw [Bool.not_eq_false] at hcon
      have hI := pyIsSpace_not_IDC c hcon
      rw [h2] at hI
      exact Bool.noConfusion hI
    refine ⟨[] :: ws, ?_, ?_, ?_⟩
    · simp [split_cons_char c rst h1 h2', hlen]
    · intro w hw
      rcases List.mem_cons.mp hw with rfl | hw2
      · simp
      · exact hsp w hw2
    · rw [split_cons_char c rst h1 h2']
      simp only [interleave, List.nil_append]
      rw [← hi]
      simp
  | case5 c rst h1 h2 h3 ih =>
    obtain ⟨ws, hlen, hsp, hi⟩ := ih
    obtain ⟨w0, ws', rfl⟩ : ∃ w0 ws', ws = w0 :: ws' := by
      cases ws with
      | nil => simp at hlen
      | cons a b => exact ⟨a, b, rfl⟩
    refine ⟨(c :: w0) :: ws', ?_, ?_, ?_⟩
    · simpa [split_cons_space c rst h1 h3] using hlen
    · intro w hw
      rcases List.mem_cons.mp hw with rfl | hw2
      · intro a ha
        rcases List.mem_cons.mp ha with rfl | ha2
        · exact h3
        · exact hsp w0 (by simp) a ha2
      · exact hsp w (by simp [hw2])
    · rw [split_cons_space c rst h1 h3, interleave_cons_head, ← hi]
  | case6 c rst h1 h2 h3 ih =>
    obtain ⟨ws, hlen, hsp, hi⟩ := ih
    have h3' : pyIsSpace c = false := by simpa using h3
    refine ⟨[] :: ws, ?_, ?_, ?_⟩
    · simp [split_cons_char c rst h1 h3', hlen]
    · intro w hw
      rcases List.mem_cons.mp hw with rfl | hw2
      · simp
      · exact hsp w hw2
    · rw [split_cons_char c rst h1 h3']
      simp only [interleave, List.nil_append]
      rw [← hi]
      simp

/-- Counterexample to C10 as stated: the entity reference token `"&a b;"`
contains a whitespace character, so concatenating the tokens of
`parse_ids("&a b;")` does not equal the input with whitespace removed. -/
theorem C10_counterexample :
    (split_special_chars ['&', 'a', ' ', 'b', ';']).flatten ≠
      ['&', 'a', ' ', 'b', ';'].filter (fun c => !pyIsSpace c) := by
  have hs : split_special_chars ['&', 'a', ' ', 'b', ';'] = [['&', 'a', ' ', 'b', ';']] := by
    rw [show (['&', 'a', ' ', 'b', ';'] : Str) = '&' :: ['a', ' ', 'b', ';'] from rfl,
      split_cons_entity ['a', ' ', 'b', ';'] ['a', ' ', 'b'] []
        (by simp [takeEntity, splitAtSemi]), split_special_chars]
    decide
  rw [hs]
  decide

/-! ### Lookup claims (C2, C4) -/

def recKey6728 : CharRec := ⟨['A', 'B', 'C', 'D'], [], []⟩
def recX6728 : CharRec := ⟨['6', '7', '2', '8'], [], []⟩
def recMu6728 : CharRec := ⟨['6', '7', '2', '8'], ['木'], []⟩

/-- A table that contains the record (木, unicode "6728") but also a literal
key `"6728"` and an earlier record `X` with the same unicode field. -/
def dbC2 : Db := [(['6', '7', '2', '8'], recKey6728), (['X'], recX6728), (['木'], recMu6728)]

/-- Counterexample to C2 as stated: with the 木/6728 record present,
`get_data "U+6728"` returns the first record whose unicode field matches
(here `X`), and `get_data "6728"` returns the record of the literal key
`"6728"` — neither is 木's record. -/
theorem C2_counterexample :
    (['木'], recMu6728) ∈ dbC2 ∧ recMu6728.unicode = ['6', '7', '2', '8'] ∧
    get_data dbC2 ['U', '+', '6', '7', '2', '8'] = some (['X'], recX6728) ∧
    get_data dbC2 ['6', '7', '2', '8'] = some (['6', '7', '2', '8'], recKey6728) ∧
    some ((['X'] : Str), recX6728) ≠ some ((['木'] : Str), recMu6728) ∧
    some ((['6', '7', '2', '8'] : Str), recKey6728) ≠ some ((['木'] : Str), recMu6728) := by
  refine ⟨by simp [dbC2], rfl, ?_, ?_, by decide, by decide⟩ <;>
    simp +decide [get_data, isUnicodeFormat, strStartsWith, dbGet, List.find?, dbC2,
      recKey6728, recX6728, recMu6728, normCode, pyUpper, pyReplace, firstValidChar,
      pyIsSpace, isHexDigit]

/-- C2 (amended): if none of the four spellings is itself a key of the
table and 木's record is the first whose unicode field matches `6728`
case-insensitively, then `get_data` on `U+6728`, `u6728`, `uni6728` and
`6728` all return that record. -/
theorem C2_unicode_lookup (db : Db) (r : CharRec)
    (h1 : dbGet db ['U', '+', '6', '7', '2', '8'] = none)
    (h2 : dbGet db ['u', '6', '7', '2', '8'] = none)
    (h3 : dbGet db ['u', 'n', 'i', '6', '7', '2', '8'] = none)
    (h4 : dbGet db ['6', '7', '2', '8'] = none)
    (h5 : db.find? (fun p => pyUpper p.2.unicode == ['6', '7', '2', '8']) = some (['木'], r)) :
    get_data db ['U', '+', '6', '7', '2', '8'] = some (['木'], r) ∧
    get_data db ['u', '6', '7', '2', '8'] = some (['木'], r) ∧
    get_data db ['u', 'n', 'i', '6', '7', '2', '8'] = some (['木'], r) ∧
    get_data db ['6', '7', '2', '8'] = some (['木'], r) := by
  refine ⟨?_, ?_, ?_, ?_⟩
  · have hn : normCode ['U', '+', '6', '7', '2', '8'] = ['6', '7', '2', '8'] := by
      simp +decide [normCode, pyUpper, pyReplace, strStartsWith]
    simp only [get_data]
    rw [if_neg (by decide)]
    simp only [h1, hn]
    exact h5
  · have hn : normCode ['u', '6', '7', '2', '8'] = ['6', '7', '2', '8'] := by
      simp +decide [normCode, pyUpper, pyReplace, strStartsWith]
    simp only [get_data]
    rw [if_neg (by decide)]
    simp only [h2, hn]
    exact h5
  · have hn : normCode ['u', 'n', 'i', '6', '7', '2', '8'] = ['6', '7', '2', '8'] := by
      simp +decide [normCode, pyUpper, pyReplace, strStartsWith]
    simp only [get_data]
    rw [if_neg (by decide)]
    simp only [h3, hn]
    exact h5
  · have hn : normCode ['6', '7', '2', '8'] = ['6', '7', '2', '8'] := by
      simp +decide [normCode, pyUpper, pyReplace, strStartsWith]
    simp only [get_data]
    rw [if_neg (by decide)]
    simp only [h4, hn]
    exact h5

/-- A table holding only the 木/6728 record. -/
def dbMu : Db := [(['木'], recMu6728)]

/-- Witness for C2 on `dbMu`. -/
theorem C2_unicode_lookup_witness :
    get_data dbMu ['U', '+', '6', '7', '2', '8'] = some (['木'], recMu6728) ∧
    get_data dbMu ['u', 'n', 'i', '6', '7', '2', '8'] = some (['木'], recMu6728) := by
  have h := C2_unicode_lookup dbMu recMu6728 (by decide) (by decide) (by decide) (by decide)
    (by decide)
  exact ⟨h.1, h.2.2.1⟩

/-- Counterexample to C4 as stated: `"木木"` has no record, yet with
`maxDepth = 0` `decompose` returns the depth-limit marker rather than
`[("", c)]`, and `get_data` resolves the string's first character instead
of returning the empty result. -/
theorem C4_counterexample :
    dbGet dbMu ['木', '木'] = none ∧
    decompose dbMu ['木', '木'] 0 0 ≠ [([], ['木', '木'])] ∧
    get_data dbMu ['木', '木'] ≠ none := by
  refine ⟨by decide, ?_, ?_⟩
  · have hd : decompose dbMu ['木', '木'] 0 0 =
        [(BRANCH_LAST, ['木', '木'] ++ DEPTH_MARK)] := by
      unfold decompose decomposeRecur
      simp [repPre]
    rw [hd]
    simp [BRANCH_LAST, DEPTH_MARK]
  · have hg : get_data dbMu ['木', '木'] = some (['木'], recMu6728) := by
      simp +decide [get_data, isUnicodeFormat, strStartsWith, isHexDigit, firstValidChar,
        dbGet, List.find?, dbMu, pyIsSpace]
    rw [hg]
    simp

/-- C4 (amended): for a string with no record, `decompose` with
`maxDepth ≥ 1` returns the single leaf `[("", c)]`; and if the string is
moreover a single character whose normalized form matches no record's
unicode field, `get_data` returns the empty "not found" result. -/
theorem C4_missing_char (db : Db) (c : Str) (k : Nat) (vi : Int)
    (hmiss : dbGet db c = none) (hk : 1 ≤ k) :
    decompose db c k vi = [([], c)] ∧
    (c.length = 1 → db.find? (fun p => pyUpper p.2.unicode == normCode c) = none →
      get_data db c = none) := by
  constructor
  · unfold decompose
    rw [decomposeRecur]
    rw [dif_neg (by omega)]
    simp [hmiss, leafPre]
  · intro hlen hfind
    simp only [get_data]
    rw [if_neg (by simp [hlen])]
    simp only [hmiss]
    exact hfind

/-- Witness for C4 at a character absent from `dbMu`. -/
theorem C4_missing_char_witness :
    decompose dbMu ['Z'] 5 0 = [([], ['Z'])] ∧ get_data dbMu ['Z'] = none := by
  have h := C4_missing_char dbMu ['Z'] 5 0 (by decide) (by omega)
  exact ⟨h.1, h.2 (by decide) (by decide)⟩

/-! ### Sister-character claims (C3, C6) -/

/-- C3: for a character in the table whose selected (non-empty) target IDS
has at most one non-IDC token, `find_sister_characters` with a
single-variant selector returns exactly the atomic singleton
`{"獨體字": {c: [c]}}` and nothing else. -/
theorem C3_atomic_singleton (db : Db) (char : Str) (charset : Option (List Str))
    (vi : Int) (r : CharRec) (hr : dbGet db char = some r) (hvi : vi = 0 ∨ vi = 1)
    (hne : sisterTargetIds r vi ≠ [])
    (hlen : (componentsOf (sisterTargetIds r vi)).length ≤ 1) :
    find_sister_characters db char charset vi = .plain [(CAT_ATOM, [(char, [char])])] := by
  have hvi' : ¬ vi = -1 := by rcases hvi with rfl | rfl <;> decide
  simp only [find_sister_characters, hr]
  rw [if_neg hvi', if_neg hne]
  unfold sisterByIds
  rw [if_neg hne]
  simp only [if_pos hlen]

/-- Witness for C3: 木 with `ids_1 = "木"` (a single component). -/
theorem C3_atomic_singleton_witness :
    find_sister_characters dbMu ['木'] none 0 =
      .plain [(CAT_ATOM, [(['木'], [['木']])])] := by
  have hsp : split_special_chars ['木'] = [['木']] := by
    rw [show (['木'] : Str) = '木' :: [] from rfl,
      split_cons_char '木' [] (by decide) (by decide), split_special_chars]
  refine C3_atomic_singleton dbMu ['木'] none 0 recMu6728 (by decide) (Or.inl rfl)
    (by decide) ?_
  simp +decide [componentsOf, hsp, sisterTargetIds, recMu6728, pyInStr, strStartsWith,
    IDC_LIST]

/-- Counterexample to C6 as stated: for 木 with `ids_1 = "木"` (atomic) and
`ids_2` absent, the per-variant results are `r1` = the atomic singleton and
`r2` = the empty dict; the claim says the merged result is the non-atomic
one of the two (`r2`), but the code returns the atomic `r1`. -/
theorem C6_counterexample :
    hasCat (sisterByIds dbMu ['木'] recMu6728.ids_1 none) CAT_ATOM = true ∧
    sisterByIds dbMu ['木'] recMu6728.ids_2 none = [] ∧
    hasCat (sisterByIds dbMu ['木'] recMu6728.ids_2 none) CAT_ATOM = false ∧
    find_sister_characters dbMu ['木'] none (-1) =
      .plain (sisterByIds dbMu ['木'] recMu6728.ids_1 none) ∧
    find_sister_characters dbMu ['木'] none (-1) ≠
      .plain (sisterByIds dbMu ['木'] recMu6728.ids_2 none) := by
  have hsp : split_special_chars ['木'] = [['木']] := by
    rw [show (['木'] : Str) = '木' :: [] from rfl,
      split_cons_char '木' [] (by decide) (by decide), split_special_chars]
  have h1 : sisterByIds dbMu ['木'] recMu6728.ids_1 none =
      ([(CAT_ATOM, [(['木'], [['木']])])] : SisterDict) := by
    unfold sisterByIds
    simp +decide [recMu6728, componentsOf, hsp, pyInStr, strStartsWith, IDC_LIST]
  have h2 : sisterByIds dbMu ['木'] recMu6728.ids_2 none = [] := by
    unfold sisterByIds
    simp [recMu6728]
  have hdg : dbGet dbMu ['木'] = some recMu6728 := by decide
  refine ⟨by rw [h1]; decide, h2, by rw [h2]; decide, ?_, ?_⟩
  · simp only [find_sister_characters, hdg, if_true]
    rw [h1, h2]
    decide
  · simp only [find_sister_characters, hdg, if_true]
    rw [h1, h2]
    decide

/-- C6 (amended): with `variantSelector = -1` the two per-variant results
`r1` (from `ids_1`) and `r2` (from `ids_2`) are merged as follows: if `r1`
is atomic then `r2` is returned only when it is non-empty and non-atomic,
otherwise `r1` (in particular the atomic `r1` is returned when `r2` is
empty); if only `r2` is atomic then `r1` is returned; otherwise the result
keeps both sub-results unchanged under the two variant keys with no
cross-variant deduplication. -/
theorem C6_variant_merge (db : Db) (char : Str) (charset : Option (List Str)) (r : CharRec)
    (hr : dbGet db char = some r) :
    ((hasCat (sisterByIds db char r.ids_1 charset) CAT_ATOM = true ∧
      sisterByIds db char r.ids_2 charset ≠ [] ∧
      hasCat (sisterByIds db char r.ids_2 charset) CAT_ATOM = false) →
      find_sister_characters db char charset (-1) =
        .plain (sisterByIds db char r.ids_2 charset)) ∧
    ((hasCat (sisterByIds db char r.ids_1 charset) CAT_ATOM = true ∧
      (sisterByIds db char r.ids_2 charset = [] ∨
       hasCat (sisterByIds db char r.ids_2 charset) CAT_ATOM = true)) →
      find_sister_characters db char charset (-1) =
        .plain (sisterByIds db char r.ids_1 charset)) ∧
    ((hasCat (sisterByIds db char r.ids_1 charset) CAT_ATOM = false ∧
      hasCat (sisterByIds db char r.ids_2 charset) CAT_ATOM = true) →
      find_sister_characters db char charset (-1) =
        .plain (sisterByIds db char r.ids_1 charset)) ∧
    ((hasCat (sisterByIds db char r.ids_1 charset) CAT_ATOM = false ∧
      hasCat (sisterByIds db char r.ids_2 charset) CAT_ATOM = false) →
      find_sister_characters db char charset (-1) =
        .merged (sisterByIds db char r.ids_1 charset)
          (sisterByIds db char r.ids_2 charset)) := by
  have hbase : find_sister_characters db char charset (-1) =
      merge_sister_results (sisterByIds db char r.ids_1 charset)
        (sisterByIds db char r.ids_2 charset) := by
    simp only [find_sister_characters, hr, if_true]
  refine ⟨?_, ?_, ?_, ?_⟩
  · rintro ⟨ha1, hne2, ha2⟩
    rw [hbase]
    unfold merge_sister_results
    rw [if_pos ha1, if_pos (by simp [hne2, ha2])]
  · rintro ⟨ha1, hcase⟩
    rw [hbase]
    unfold merge_sister_results
    rw [if_pos ha1, if_neg (by rcases hcase with h | h <;> simp [h])]
  · rintro ⟨ha1, ha2⟩
    rw [hbase]
    unfold merge_sister_results
    rw [if_neg (by simp [ha1]), if_pos ha2]
  · rintro ⟨ha1, ha2⟩
    rw [hbase]
    unfold merge_sister_results
    rw [if_neg (by simp [ha1]), if_neg (by simp [ha2])]

/-! ### Occurrence counting for the sister result (C5) -/

/-- Occurrences of `x` across the group lists of one category. -/
def countInGroups (g : List (Str × List Str)) (x : Str) : Nat :=
  (g.map (fun p => p.2.count x)).sum

/-- Occurrences of `x` across every (category, group-key) list of a sister
dict. -/
def countInSisters (d : SisterDict) (x : Str) : Nat :=
  (d.map (fun p => countInGroups p.2 x)).sum

/-- Occurrences of `x` in a `find_sister_characters` result. -/
def countInRes : SisterRes → Str → Nat
  | .plain d, x => countInSisters d x
  | .merged r1 r2, x => countInSisters r1 x + countInSisters r2 x

theorem countInGroups_addGroup (g : List (Str × List Str)) (key x y : Str) :
    countInGroups (addGroup g key x) y =
      countInGroups g y + (if x = y then 1 else 0) := by
  induction g with
  | nil =>
    simp only [addGroup, countInGroups, List.map_cons, List.map_nil, List.sum_cons,
      List.sum_nil, List.count_cons, List.count_nil]
    by_cases h : x = y <;> simp [h, beq_iff_eq]
  | cons hd rest ih =>
    obtain ⟨k, l⟩ := hd
    simp only [addGroup]
    by_cases hk : k = key
    · rw [if_pos hk]
      simp only [countInGroups, List.map_cons, List.sum_cons, List.count_append]
      by_cases h : x = y <;> simp [h, beq_iff_eq, List.count_cons] <;> omega
    · rw [if_neg hk]
      simp only [countInGroups, List.map_cons, List.sum_cons] at ih ⊢
      rw [ih]
      omega

theorem countInSisters_addSister (d : SisterDict) (cat key x y : Str) :
    countInSisters (addSister d cat key x) y ≤
      countInSisters d y + (if x = y then 1 else 0) := by
  induction d with
  | nil => simp [addSister, countInSisters]
  | cons hd rest ih =>
    obtain ⟨c, g⟩ := hd
    simp only [addSister]
    by_cases hc : c = cat
    · rw [if_pos hc]
      simp only [countInSisters, List.map_cons, List.sum_cons]
      rw [countInGroups_addGroup]
      omega
    · rw [if_neg hc]
      simp only [countInSisters, List.map_cons, List.sum_cons] at ih ⊢
      omega

theorem countInSisters_sisterStep (char tS : Str) (tC : List Str)
    (charset : Option (List Str)) (acc : SisterDict) (e : Str × CharRec) (y : Str) :
    countInSisters (sisterStep char tS tC charset acc e) y ≤
      countInSisters acc y + (if e.1 = y then 1 else 0) := by
  by_cases he : e.1 = y
  · rw [if_pos he]
    unfold sisterStep
    dsimp only
    repeat' split
    all_goals try exact Nat.le_add_right _ _
    all_goals
      exact le_trans (countInSisters_addSister acc _ _ e.1 y) (by rw [if_pos he])
  · rw [if_neg he]
    unfold sisterStep
    dsimp only
    repeat' split
    all_goals try exact Nat.le_add_right _ _
    all_goals
      exact le_trans (countInSisters_addSister acc _ _ e.1 y) (by rw [if_neg he])

theorem countInSisters_foldl (char tS : Str) (tC : List Str)
    (charset : Option (List Str)) (entries : List (Str × CharRec)) (acc : SisterDict)
    (y : Str) (hnd : (entries.map Prod.fst).Nodup) :
    countInSisters (entries.foldl (sisterStep char tS tC charset) acc) y ≤
      countInSisters acc y + (if y ∈ entries.map Prod.fst then 1 else 0) := by
  induction entries generalizing acc with
  | nil => simp
  | cons e rest ih =>
    simp only [List.map_cons, List.nodup_cons] at hnd
    simp only [List.foldl_cons]
    have hstep := countInSisters_sisterStep char tS tC charset acc e y
    have hrec := ih (sisterStep char tS tC charset acc e) hnd.2
    by_cases he : e.1 = y
    · have hy : y ∉ rest.map Prod.fst := by rw [← he]; exact hnd.1
      rw [if_neg hy] at hrec
      rw [if_pos he] at hstep
      have hm : y ∈ (e :: rest).map Prod.fst := by
        simp only [List.map_cons, List.mem_cons]
        exact Or.inl he.symm
      rw [if_pos hm]
      omega
    · rw [if_neg he] at hstep
      by_cases hy : y ∈ rest.map Prod.fst
      · rw [if_pos hy] at hrec
        rw [if_pos (by simp [hy])]
        omega
      · rw [if_neg hy] at hrec
        have : y ∉ (e :: rest).map Prod.fst := by
          simp only [List.map_cons, List.mem_cons]
          rintro (h | h)
          · exact he h.symm
          · exact hy h
        rw [if_neg this]
        omega

/-- C5: in a single-variant sister search over a table with unique keys, a
character other than the target is filed in at most one (category,
group-key) list across the entire result: its first matching IDS variant
decides its single filing. -/
theorem C5_no_double_filing (db : Db) (char : Str) (charset : Option (List Str))
    (vi : Int) (x : Str) (hnd : (db.map Prod.fst).Nodup) (hx : x ≠ char)
    (hvi : vi = 0 ∨ vi = 1) :
    countInRes (find_sister_characters db char charset vi) x ≤ 1 := by
  have hvi' : ¬ vi = -1 := by rcases hvi with rfl | rfl <;> decide
  unfold find_sister_characters
  cases hdg : dbGet db char with
  | none => simp [countInRes, countInSisters]
  | some data =>
    dsimp only
    rw [if_neg hvi']
    by_cases hne : sisterTargetIds data vi = []
    · rw [if_pos hne]
      simp [countInRes, countInSisters]
    · rw [if_neg hne]
      show countInSisters (sisterByIds db char (sisterTargetIds data vi) charset) x ≤ 1
      unfold sisterByIds
      rw [if_neg hne]
      by_cases hlen : (componentsOf (sisterTargetIds data vi)).length ≤ 1
      · simp only [if_pos hlen]
        simp [countInSisters, countInGroups, List.count_cons, beq_iff_eq, hx]
      · simp only [if_neg hlen]
        have := countInSisters_foldl char (structureOf (sisterTargetIds data vi))
          (componentsOf (sisterTargetIds data vi)) charset db initSisters x hnd
        have hinit : countInSisters initSisters x = 0 := by
          simp [initSisters, countInSisters, countInGroups]
        rw [hinit] at this
        split at this <;> omega

/-- Witness for C5 on `dbMu`. -/
theorem C5_no_double_filing_witness :
    countInRes (find_sister_characters dbMu ['木'] none 0) ['X'] ≤ 1 :=
  C5_no_double_filing dbMu ['木'] none 0 ['X'] (by simp [dbMu]) (by decide) (Or.inl rfl)

/-! ### Derived-characters claim (C7) -/

theorem addGroup_no_mem (g : List (Str × List Str)) (key c x : Str)
    (hg : ∀ p ∈ g, x ∉ p.2) (hc : x ≠ c) : ∀ p ∈ addGroup g key c, x ∉ p.2 := by
  induction g with
  | nil =>
    intro p hp
    simp only [addGroup, List.mem_singleton] at hp
    subst hp
    simp [hc]
  | cons hd rest ih =>
    obtain ⟨k, l⟩ := hd
    intro p hp
    simp only [addGroup] at hp
    by_cases hk : k = key
    · rw [if_pos hk] at hp
      rcases List.mem_cons.mp hp with rfl | hp2
      · intro hmem
        rcases List.mem_append.mp hmem with h1 | h1
        · exact hg (k, l) (by simp) h1
        · rw [List.mem_singleton] at h1
          exact hc h1
      · exact hg p (by simp [hp2])
    · rw [if_neg hk] at hp
      rcases List.mem_cons.mp hp with rfl | hp2
      · exact hg (k, l) (by simp)
      · exact ih (fun q hq => hg q (by simp [hq])) p hp2

theorem foldl_addGroup_no_mem (ms : List Str) (g : List (Str × List Str)) (c x : Str)
    (hg : ∀ p ∈ g, x ∉ p.2) (hc : x ≠ c) :
    ∀ p ∈ ms.foldl (fun acc mc => addGroup acc mc c) g, x ∉ p.2 := by
  induction ms generalizing g with
  | nil => simpa using hg
  | cons m rest ih =>
    simp only [List.foldl_cons]
    exact ih (addGroup g m c) (addGroup_no_mem g m c x hg hc)

theorem derivedStep_no_self (db : Db) (char : Str) (charset : Option (List Str))
    (parts : List Str) (groups : List (Str × List Str)) (e : Str × CharRec)
    (hg : ∀ p ∈ groups, char ∉ p.2) :
    ∀ p ∈ derivedStep db char charset parts groups e, char ∉ p.2 := by
  unfold derivedStep
  split
  · exact hg
  · split
    · exact hg
    · dsimp only
      rename_i h1 h2
      exact foldl_addGroup_no_mem _ groups e.1 char hg (fun heq => h1 heq.symm)

/-- C7: the target character never appears in any group list of
`find_derived_characters` (every appended character is a table key checked
to differ from the target). -/
theorem C7_no_self_derivation (db : Db) (char : Str) (charset : Option (List Str))
    (key : Str) (lst : List Str)
    (hmem : (key, lst) ∈ find_derived_characters db char charset) :
    char ∉ lst := by
  have hall : ∀ (parts : List Str) (entries : List (Str × CharRec))
      (groups : List (Str × List Str)), (∀ p ∈ groups, char ∉ p.2) →
      ∀ p ∈ entries.foldl (derivedStep db char charset parts) groups, char ∉ p.2 := by
    intro parts entries
    induction entries with
    | nil => intro groups hg; simpa using hg
    | cons e rest ih =>
      intro groups hg
      simp only [List.foldl_cons]
      exact ih _ (derivedStep_no_self db char charset parts groups e hg)
  unfold find_derived_characters at hmem
  dsimp only at hmem
  exact hall _ db [] (by simp) (key, lst) hmem

def recNone : CharRec := ⟨[], [], []⟩
def recLin : CharRec := ⟨[], ['⿰', '木', '木'], []⟩

/-- 林 = ⿰木木 over an atomic 木. -/
def dbLin : Db := [(['木'], recNone), (['林'], recLin)]

theorem find_derived_dbLin :
    find_derived_characters dbLin ['木'] none = [(['木'], [['林']])] := by
  simp +decide [find_derived_characters, processComponent, processSubs, derivedStep,
    matchingComponents, decompose, decomposeRecur, decomposeIdsList, decomposeComps,
    dbLin, recNone, recLin, dbGet, List.find?, idsSelection, IDC_LIST, leafPre, repPre,
    split_special_chars, takeEntity, splitAtSemi, isIDC, pyIsSpace, pyInStr,
    strStartsWith, addSet, isSpecial, addGroup, DState.mk.injEq, BRANCH_LAST, BRANCH_MID,
    SEP_OR]

/-- Witness for C7: 林 is derived from 木 in `dbLin`, and 木 itself is not in
the group. -/
theorem C7_no_self_derivation_witness : (['木'] : Str) ∉ ([['林']] : List Str) :=
  C7_no_self_derivation dbLin ['木'] none ['木'] [['林']]
    (by rw [find_derived_dbLin]; simp)

/-! ### Depth bound and the swallowed depth marker (C1) -/

/-- 林 = ⿰木木 where 木 itself decomposes further (木 = ⿻十人). -/
def recMuDeep : CharRec := ⟨[], ['⿻', '十', '人'], []⟩
def dbDeep : Db := [(['木'], recMuDeep), (['林'], recLin)]

/-- C1 evaluated at the failing input: decomposing 林 with `maxDepth = 1`
reaches the expandable node 木 at depth 1, yet the result contains no
"(達到最大深度)" marker leaf — the recursive call at depth 1 returns only
the marker entry, and the caller's `sub_result[1:]` splice drops it, so the
node is shown as a plain leaf.  (The depth bound itself holds: no entry lies
deeper than `maxDepth`.) -/
theorem C1_depth_marker_swallowed :
    decompose dbDeep ['林'] 1 0 =
      [([], ['林']), ([], ['⿰']), (BRANCH_MID, ['木']), (BRANCH_LAST, ['木'])] ∧
    decomposeRecur dbDeep ['木'] 1 true 1 0 =
      [(repPre 1 ++ BRANCH_LAST, ['木'] ++ DEPTH_MARK)] ∧
    ∀ p c, (p, c) ∈ decompose dbDeep ['林'] 1 0 → pyInStr DEPTH_MARK c = false := by
  refine ⟨?_, ?_, ?_⟩
  · simp +decide [decompose, decomposeRecur, decomposeIdsList, decomposeComps, dbDeep,
      recMuDeep, recLin, dbGet, List.find?, idsSelection, IDC_LIST, leafPre, repPre,
      split_special_chars, takeEntity, splitAtSemi, isIDC, pyIsSpace, pyInStr,
      strStartsWith, BRANCH_LAST, BRANCH_MID, SEP_OR]
  · rw [decomposeRecur]
    simp
  · have hd : decompose dbDeep ['林'] 1 0 =
        [([], ['林']), ([], ['⿰']), (BRANCH_MID, ['木']), (BRANCH_LAST, ['木'])] := by
      simp +decide [decompose, decomposeRecur, decomposeIdsList, decomposeComps, dbDeep,
        recMuDeep, recLin, dbGet, List.find?, idsSelection, IDC_LIST, leafPre, repPre,
        split_special_chars, takeEntity, splitAtSemi, isIDC, pyIsSpace, pyInStr,
        strStartsWith, BRANCH_LAST, BRANCH_MID, SEP_OR]
    rw [hd]
    intro p c hpc
    simp only [List.mem_cons, List.not_mem_nil, or_false, Prod.mk.injEq] at hpc
    rcases hpc with ⟨h1, rfl⟩ | ⟨h1, rfl⟩ | ⟨h1, rfl⟩ | ⟨h1, rfl⟩ <;> decide

/-- Witness for C6 on `dbMu` (`r1` atomic, `r2` empty: `r1` is returned). -/
theorem C6_variant_merge_witness :
    find_sister_characters dbMu ['木'] none (-1) =
      .plain (sisterByIds dbMu ['木'] recMu6728.ids_1 none) := by
  have hsp : split_special_chars ['木'] = [['木']] := by
    rw [show (['木'] : Str) = '木' :: [] from rfl,
      split_cons_char '木' [] (by decide) (by decide), split_special_chars]
  have h1 : sisterByIds dbMu ['木'] recMu6728.ids_1 none =
      ([(CAT_ATOM, [(['木'], [['木']])])] : SisterDict) := by
    unfold sisterByIds
    simp +decide [recMu6728, componentsOf, hsp, pyInStr, strStartsWith, IDC_LIST]
  have h2 : sisterByIds dbMu ['木'] recMu6728.ids_2 none = [] := by
    unfold sisterByIds
    simp [recMu6728]
  exact (C6_variant_merge dbMu ['木'] none recMu6728 (by decide)).2.1
    ⟨by rw [h1]; decide, Or.inl h2⟩

/-! ### String lemmas for the extract/display round trip (C8) -/

theorem pyInStr_cons_of (pat : Str) (c : Char) (s : Str) (h : pyInStr pat s = true) :
    pyInStr pat (c :: s) = true := by
  rw [pyInStr]
  simp [h]

theorem strStartsWith_pyInStr (s pat : Str) (h : strStartsWith s pat = true) :
    pyInStr pat s = true := by
  cases s with
  | nil =>
    cases pat with
    | nil => rfl
    | cons b t => simp [strStartsWith] at h
  | cons a rest =>
    rw [pyInStr]
    simp [h]

theorem pyInStr_append_right_of_head_notin (pat : Str) (hch : Char)
    (hhead : pat.head? = some hch) (x t : Str) (hx : ∀ a ∈ x, a ≠ hch)
    (h : pyInStr pat (x ++ t) = true) : pyInStr pat t = true := by
  induction x with
  | nil => simpa using h
  | cons a rest ih =>
    obtain ⟨pat', rfl⟩ : ∃ pat', pat = hch :: pat' := by
      cases pat with
      | nil => simp at hhead
      | cons b t2 =>
        simp only [List.head?_cons, Option.some.injEq] at hhead
        exact ⟨t2, by rw [hhead]⟩
    rw [List.cons_append, pyInStr] at h
    rcases Bool.or_eq_true_iff.mp h with h1 | h1
    · rw [strStartsWith] at h1
      simp only [Bool.and_eq_true, beq_iff_eq] at h1
      exact absurd h1.1 (hx a (by simp))
    · exact ih (fun b hb => hx b (by simp [hb])) h1

theorem pyInStr_tail (a : Char) (pat s : Str) (h : pyInStr (a :: pat) s = true) :
    pyInStr pat s = true := by
  induction s with
  | nil => simp [pyInStr] at h
  | cons c rest ih =>
    rw [pyInStr] at h
    rcases Bool.or_eq_true_iff.mp h with h1 | h1
    · rw [strStartsWith] at h1
      simp only [Bool.and_eq_true] at h1
      exact pyInStr_cons_of pat c rest (strStartsWith_pyInStr rest pat h1.2)
    · exact pyInStr_cons_of pat c rest (ih h1)

theorem pyInStr_singleton (x : Char) (s : Str) : pyInStr [x] s = s.contains x := by
  induction s with
  | nil => rfl
  | cons a rest ih =>
    simp only [pyInStr, strStartsWith, Bool.and_true, List.contains_cons, ih]
    by_cases h : a = x
    · simp [h]
    · have h1 : (a == x) = false := beq_eq_false_iff_ne.mpr h
      have h2 : (x == a) = false := beq_eq_false_iff_ne.mpr (Ne.symm h)
      rw [h1, h2]

theorem pyReplace_cons_ne (a : Char) (s pat rep : Str) (hch : Char)
    (hhead : pat.head? = some hch) (hne : a ≠ hch) :
    pyReplace (a :: s) pat rep = a :: pyReplace s pat rep := by
  obtain ⟨pat', rfl⟩ : ∃ pat', pat = hch :: pat' := by
    cases pat with
    | nil => simp at hhead
    | cons b t2 =>
      simp only [List.head?_cons, Option.some.injEq] at hhead
      exact ⟨t2, by rw [hhead]⟩
  rw [pyReplace]
  rw [if_neg]
  simp only [strStartsWith, Bool.and_eq_true, beq_iff_eq]
  rintro ⟨-, ⟨rfl, -⟩⟩
  exact hne rfl

theorem pyReplace_append_left_notin (x t pat rep : Str) (hch : Char)
    (hhead : pat.head? = some hch) (hx : ∀ a ∈ x, a ≠ hch) :
    pyReplace (x ++ t) pat rep = x ++ pyReplace t pat rep := by
  induction x with
  | nil => simp
  | cons a rest ih =>
    rw [List.cons_append,
      pyReplace_cons_ne a (rest ++ t) pat rep hch hhead (hx a (by simp)),
      ih (fun b hb => hx b (by simp [hb]))]
    rfl

theorem pyReplace_no_occur (s pat rep : Str) (h : pyInStr pat s = false) :
    pyReplace s pat rep = s := by
  induction s with
  | nil => rw [pyReplace]
  | cons a rest ih =>
    rw [pyInStr] at h
    rcases Bool.or_eq_false_iff.mp h with ⟨h1, h2⟩
    rw [pyReplace, if_neg (by simp [h1]), ih h2]

theorem pyReplace_self (s : Str) (x : Char) : pyReplace s [x] [x] = s := by
  induction s with
  | nil => rw [pyReplace]
  | cons a rest ih =>
    rw [pyReplace]
    by_cases h : strStartsWith (a :: rest) [x] = true
    · rw [if_pos (by simp [h])]
      rw [strStartsWith] at h
      simp only [Bool.and_eq_true, beq_iff_eq] at h
      simp only [List.length_cons, List.length_nil, List.drop_succ_cons, List.drop_zero]
      rw [ih, h.1]
      rfl
    · rw [if_neg (by simp [h]), ih]

theorem dropWhile_all_false (p : Char → Bool) (s : Str)
    (h : ∀ a ∈ s, p a = false) : s.dropWhile p = s := by
  cases s with
  | nil => rfl
  | cons c rest => simp [List.dropWhile_cons, h c (by simp)]

theorem pyStrip_no_space (s : Str) (h : ∀ a ∈ s, pyIsSpace a = false) :
    pyStrip s = s := by
  unfold pyStrip
  rw [dropWhile_all_false pyIsSpace s h,
    dropWhile_all_false pyIsSpace s.reverse (fun a ha => h a (List.mem_reverse.mp ha)),
    List.reverse_reverse]

theorem mem_dropWhile_of_not (p : Char → Bool) (s : Str) (a : Char)
    (ha : a ∈ s) (hna : p a = false) : a ∈ s.dropWhile p := by
  induction s with
  | nil => simp at ha
  | cons c rest ih =>
    rw [List.dropWhile_cons]
    by_cases hc : p c = true
    · rw [if_pos hc]
      rcases List.mem_cons.mp ha with rfl | h2
      · rw [hna] at hc
        exact Bool.noConfusion hc
      · exact ih h2
    · rw [if_neg hc]
      exact ha

theorem pyStrip_ne_nil (s : Str) (a : Char) (ha : a ∈ s) (hna : pyIsSpace a = false) :
    pyStrip s ≠ [] := by
  unfold pyStrip
  intro hcon
  rw [List.reverse_eq_nil_iff] at hcon
  have h1 : a ∈ (s.dropWhile pyIsSpace).reverse :=
    List.mem_reverse.mpr (mem_dropWhile_of_not pyIsSpace s a ha hna)
  have h2 := mem_dropWhile_of_not pyIsSpace _ a h1 hna
  rw [hcon] at h2
  simp at h2

theorem pySplit_space_prefix (sp t : Str) (h : ∀ a ∈ sp, pyIsSpace a = true) :
    pySplit (sp ++ t) = pySplit t := by
  induction sp with
  | nil => rfl
  | cons c rest ih =>
    rw [List.cons_append, pySplit, if_pos (h c (by simp))]
    exact ih (fun a ha => h a (by simp [ha]))

theorem takeNonSpace_no_space (s : Str) (h : ∀ a ∈ s, pyIsSpace a = false) :
    takeNonSpace s = (s, []) := by
  induction s with
  | nil => rfl
  | cons c rest ih =>
    rw [takeNonSpace, if_neg (by simp [h c (by simp)])]
    simp [ih (fun a ha => h a (by simp [ha]))]

theorem pySplit_single_word (c : Char) (w : Str) (hc : pyIsSpace c = false)
    (hw : ∀ a ∈ w, pyIsSpace a = false) : pySplit (c :: w) = [c :: w] := by
  rw [pySplit, if_neg (by simp [hc])]
  simp [takeNonSpace_no_space w hw, pySplit]

/-- The grammar of prefixes emitted by `_decompose_recursive`: an
indentation run `"｜   " * j` optionally followed by one branch glyph. -/
def PrefixOK (p : Str) : Prop :=
  ∃ j, p = repPre j ∨ p = repPre j ++ BRANCH_LAST ∨ p = repPre j ++ BRANCH_MID

theorem leafPre_ok (level : Nat) : PrefixOK (leafPre level) := by
  unfold leafPre
  by_cases h : level = 0
  · exact ⟨0, by simp [h, repPre]⟩
  · rw [if_neg h]
    exact ⟨level - 1, Or.inr (Or.inl rfl)⟩

theorem decomposeComps_prefix_ok (db : Db) (comps : List Str) (level : Nat) (deep : Bool)
    (k : Nat) (vi : Int) (h : level < k)
    (IH : ∀ comp e2, e2 ∈ decomposeRecur db comp (level + 1) deep k vi → PrefixOK e2.1) :
    ∀ e ∈ decomposeComps db comps level deep k vi h, PrefixOK e.1 := by
  induction comps with
  | nil =>
    intro e he
    rw [decomposeComps] at he
    simp at he
  | cons comp rest ih =>
    intro e he
    rw [decomposeComps] at he
    try dsimp only at he
    have hpre : PrefixOK (repPre level ++ (if rest = [] then BRANCH_LAST else BRANCH_MID)) := by
      by_cases hr : rest = []
      · exact ⟨level, Or.inr (Or.inl (by rw [if_pos hr]))⟩
      · exact ⟨level, Or.inr (Or.inr (by rw [if_neg hr]))⟩
    rcases List.mem_append.mp he with h1 | h1
    · split at h1
      · split at h1
        · split at h1
          · rcases List.mem_cons.mp h1 with rfl | h2
            · exact hpre
            · exact IH comp e (List.mem_of_mem_drop h2)
          · simp only [List.mem_singleton] at h1
            subst h1
            exact hpre
        · simp only [List.mem_singleton] at h1
          subst h1
          exact hpre
      · simp only [List.mem_singleton] at h1
        subst h1
        exact hpre
    · exact ih e h1

theorem decomposeIdsList_prefix_ok (db : Db) (idsList : List Str) (char : Str)
    (level : Nat) (deep : Bool) (k : Nat) (vi : Int) (h : level < k)
    (IH : ∀ comp e2, e2 ∈ decomposeRecur db comp (level + 1) deep k vi → PrefixOK e2.1) :
    ∀ e ∈ decomposeIdsList db idsList char level deep k vi h, PrefixOK e.1 := by
  induction idsList with
  | nil =>
    intro e he
    rw [decomposeIdsList] at he
    simp at he
  | cons ids rest ih =>
    intro e he
    rw [decomposeIdsList] at he
    try dsimp only at he
    rcases List.mem_append.mp he with h1 | h1
    · rcases List.mem_append.mp h1 with h2 | h2
      · split at h2
        · simp only [List.mem_singleton] at h2
          subst h2
          exact ⟨level, Or.inl rfl⟩
        · rcases List.mem_cons.mp h2 with rfl | h3
          · exact ⟨level, Or.inl rfl⟩
          · exact decomposeComps_prefix_ok db _ level deep k vi h IH e h3
      · split at h2
        · simp only [List.mem_singleton] at h2
          subst h2
          exact ⟨level, Or.inl rfl⟩
        · simp at h2
    · exact ih e h1

theorem decomposeRecur_prefix_ok (fuel : Nat) : ∀ (db : Db) (char : Str) (level : Nat)
    (deep : Bool) (k : Nat) (vi : Int), k - level ≤ fuel →
    ∀ e ∈ decomposeRecur db char level deep k vi, PrefixOK e.1 := by
  induction fuel with
  | zero =>
    intro db char level deep k vi hf e he
    have hk : k ≤ level := by omega
    rw [decomposeRecur, dif_pos hk] at he
    simp only [List.mem_singleton] at he
    subst he
    exact ⟨level, Or.inr (Or.inl rfl)⟩
  | succ n ihf =>
    intro db char level deep k vi hf e he
    by_cases hk : k ≤ level
    · rw [decomposeRecur, dif_pos hk] at he
      simp only [List.mem_singleton] at he
      subst he
      exact ⟨level, Or.inr (Or.inl rfl)⟩
    · rw [decomposeRecur, dif_neg hk] at he
      have IH : ∀ comp e2, e2 ∈ decomposeRecur db comp (level + 1) deep k vi →
          PrefixOK e2.1 :=
        fun comp e2 he2 => ihf db comp (level + 1) deep k vi (by omega) e2 he2
      cases hdg : dbGet db char with
      | none =>
        rw [hdg] at he
        try dsimp only at he
        simp only [List.mem_singleton] at he
        subst he
        exact leafPre_ok level
      | some data =>
        rw [hdg] at he
        try dsimp only at he
        split at he
        · simp only [List.mem_singleton] at he
          subst he
          exact leafPre_ok level
        · split at he
          · simp only [List.mem_singleton] at he
            subst he
            exact leafPre_ok level
          · rcases List.mem_cons.mp he with rfl | h2
            · exact ⟨0, Or.inl rfl⟩
            · exact decomposeIdsList_prefix_ok db _ char level deep k vi (by omega) IH e h2

/-- Every entry of `decompose` has a prefix of the tree-drawing grammar. -/
theorem decompose_prefix_ok (db : Db) (char : Str) (k : Nat) (vi : Int) :
    ∀ e ∈ decompose db char k vi, PrefixOK e.1 :=
  decomposeRecur_prefix_ok k db char 0 true k vi (by omega)

theorem repPre_chars (j : Nat) : ∀ a ∈ repPre j, a = '｜' ∨ a = ' ' := by
  induction j with
  | zero => simp [repPre]
  | succ n ih =>
    intro a ha
    rw [repPre] at ha
    simp only [List.mem_cons] at ha
    rcases ha with rfl | rfl | rfl | rfl | h
    · exact Or.inl rfl
    · exact Or.inr rfl
    · exact Or.inr rfl
    · exact Or.inr rfl
    · exact ih a h

theorem prefix_ok_chars (p : Str) (hp : PrefixOK p) :
    ∀ a ∈ p, a = '｜' ∨ a = ' ' ∨ a = '└' ∨ a = '├' ∨ a = '─' := by
  obtain ⟨j, hj⟩ := hp
  have hrep := repPre_chars j
  have hLM : ∀ a ∈ BRANCH_LAST ++ BRANCH_MID,
      a = '｜' ∨ a = ' ' ∨ a = '└' ∨ a = '├' ∨ a = '─' := by decide
  rcases hj with rfl | rfl | rfl
  · intro a ha
    rcases hrep a ha with h | h
    · exact Or.inl h
    · exact Or.inr (Or.inl h)
  · intro a ha
    rcases List.mem_append.mp ha with h | h
    · rcases hrep a h with h2 | h2
      · exact Or.inl h2
      · exact Or.inr (Or.inl h2)
    · exact hLM a (by simp [h])
  · intro a ha
    rcases List.mem_append.mp ha with h | h
    · rcases hrep a h with h2 | h2
      · exact Or.inl h2
      · exact Or.inr (Or.inl h2)
    · exact hLM a (by simp [h])

theorem pyReplace_repPre (j : Nat) (t : Str) (ht : '｜' ∉ t) :
    pyReplace (repPre j ++ t) ['｜'] [' '] = List.replicate (4 * j) ' ' ++ t := by
  induction j with
  | zero =>
    simp only [repPre, List.nil_append, Nat.mul_zero, List.replicate_zero]
    exact pyReplace_no_occur t ['｜'] [' '] (by rw [pyInStr_singleton]; simpa using ht)
  | succ n ih =>
    rw [repPre]
    show pyReplace ('｜' :: ' ' :: ' ' :: ' ' :: (repPre n ++ t)) ['｜'] [' '] = _
    rw [pyReplace, if_pos (by simp [strStartsWith])]
    simp only [List.length_cons, List.length_nil, List.drop_succ_cons, List.drop_zero]
    rw [pyReplace_cons_ne ' ' _ ['｜'] [' '] '｜' rfl (by decide),
      pyReplace_cons_ne ' ' _ ['｜'] [' '] '｜' rfl (by decide),
      pyReplace_cons_ne ' ' _ ['｜'] [' '] '｜' rfl (by decide), ih]
    have h4 : 4 * (n + 1) = 4 + 4 * n := by ring
    rw [h4, List.replicate_add]
    simp [List.replicate_succ]

theorem replicate_space_all (n : Nat) : ∀ a ∈ List.replicate n ' ', a = ' ' :=
  fun a ha => List.eq_of_mem_replicate ha

theorem pyReplace_spaces_left (n : Nat) (t pat rep : Str) (hch : Char)
    (hhead : pat.head? = some hch) (hne : hch ≠ ' ') :
    pyReplace (List.replicate n ' ' ++ t) pat rep =
      List.replicate n ' ' ++ pyReplace t pat rep :=
  pyReplace_append_left_notin _ t pat rep hch hhead
    (fun a ha => by rw [replicate_space_all n a ha]; exact fun h => hne h.symm)

theorem pyReplace_branch_mid (c : Str) (h : pyInStr ['├', '─'] c = false) :
    pyReplace (BRANCH_MID ++ c) ['├', '─'] [' '] = [' ', ' '] ++ c := by
  show pyReplace ('├' :: '─' :: ' ' :: c) _ _ = _
  rw [pyReplace, if_pos (by simp [strStartsWith])]
  simp only [List.length_cons, List.length_nil, List.drop_succ_cons, List.drop_zero]
  rw [pyReplace_cons_ne ' ' c ['├', '─'] [' '] '├' rfl (by decide),
    pyReplace_no_occur c _ _ h]
  rfl

theorem pyReplace_branch_last_skip (c : Str) (h : pyInStr ['├', '─'] c = false) :
    pyReplace (BRANCH_LAST ++ c) ['├', '─'] [' '] = BRANCH_LAST ++ c := by
  show pyReplace ('└' :: '─' :: ' ' :: c) _ _ = _
  rw [pyReplace_cons_ne '└' _ ['├', '─'] [' '] '├' rfl (by decide),
    pyReplace_cons_ne '─' _ ['├', '─'] [' '] '├' rfl (by decide),
    pyReplace_cons_ne ' ' _ ['├', '─'] [' '] '├' rfl (by decide),
    pyReplace_no_occur c _ _ h]
  rfl

theorem pyReplace_branch_last (c : Str) (h : pyInStr ['└', '─'] c = false) :
    pyReplace (BRANCH_LAST ++ c) ['└', '─'] [' '] = [' ', ' '] ++ c := by
  show pyReplace ('└' :: '─' :: ' ' :: c) _ _ = _
  rw [pyReplace, if_pos (by simp [strStartsWith])]
  simp only [List.length_cons, List.length_nil, List.drop_succ_cons, List.drop_zero]
  rw [pyReplace_cons_ne ' ' c ['└', '─'] [' '] '└' rfl (by decide),
    pyReplace_no_occur c _ _ h]
  rfl

theorem pyReplace_spaces2_skip (c : Str) (h : pyInStr ['└', '─'] c = false) :
    pyReplace ([' ', ' '] ++ c) ['└', '─'] [' '] = [' ', ' '] ++ c := by
  show pyReplace (' ' :: ' ' :: c) _ _ = _
  rw [pyReplace_cons_ne ' ' _ ['└', '─'] [' '] '└' rfl (by decide),
    pyReplace_cons_ne ' ' _ ['└', '─'] [' '] '└' rfl (by decide),
    pyReplace_no_occur c _ _ h]
  rfl

theorem is_error_message_nonempty (c : Str) (h : is_error_message c = false) :
    c ≠ [] ∧ pyStrip c ≠ [] := by
  unfold is_error_message at h
  by_cases h1 : c = []
  · rw [if_pos (by simp [h1])] at h
    exact absurd h (by simp)
  by_cases h2 : pyStrip c = []
  · rw [if_pos (by simp [h2])] at h
    exact absurd h (by simp)
  exact ⟨h1, h2⟩

theorem is_error_message_no_ind (c : Str) (h : is_error_message c = false) :
    ∀ ind ∈ errorIndicators, pyInStr ind c = false := by
  obtain ⟨h1, h2⟩ := is_error_message_nonempty c h
  unfold is_error_message at h
  rw [if_neg (by simp [h1, h2])] at h
  intro ind hind
  by_contra hcon
  rw [Bool.not_eq_false] at hcon
  have hany : errorIndicators.any (fun i => pyInStr i c) = true :=
    List.any_eq_true.mpr ⟨ind, hind, hcon⟩
  rw [hany] at h
  exact Bool.noConfusion h

theorem is_error_message_intro (c : Str) (h1 : c ≠ []) (h2 : pyStrip c ≠ [])
    (h3 : ∀ ind ∈ errorIndicators, pyInStr ind c = false) :
    is_error_message c = false := by
  unfold is_error_message
  rw [if_neg (by simp [h1, h2])]
  rw [List.any_eq_false]
  intro ind hind
  simp [h3 ind hind]

theorem cleaned_split (p c : Str) (hp : PrefixOK p) (hbar : '｜' ∉ c)
    (hmid : pyInStr ['├', '─'] c = false) (hlast : pyInStr ['└', '─'] c = false) :
    ∃ sp : Str, (∀ a ∈ sp, pyIsSpace a = true) ∧
      pyReplace (pyReplace (pyReplace (pyReplace (p ++ c) ['｜'] [' ']) ['├', '─'] [' '])
        ['└', '─'] [' ']) [' '] [' '] = sp ++ c := by
  obtain ⟨j, hj⟩ := hp
  have hsp : ∀ a ∈ List.replicate (4 * j) ' ', pyIsSpace a = true := by
    intro a ha
    rw [replicate_space_all _ a ha]
    decide
  rcases hj with rfl | rfl | rfl
  · rw [pyReplace_repPre j c hbar,
      pyReplace_spaces_left _ _ ['├', '─'] [' '] '├' rfl (by decide),
      pyReplace_no_occur c _ _ hmid,
      pyReplace_spaces_left _ _ ['└', '─'] [' '] '└' rfl (by decide),
      pyReplace_no_occur c _ _ hlast,
      pyReplace_self _ ' ']
    exact ⟨_, hsp, rfl⟩
  · have hbar2 : '｜' ∉ BRANCH_LAST ++ c := by
      simp only [List.mem_append]
      rintro (h | h)
      · revert h; decide
      · exact hbar h
    rw [List.append_assoc, pyReplace_repPre j _ hbar2,
      pyReplace_spaces_left _ _ ['├', '─'] [' '] '├' rfl (by decide),
      pyReplace_branch_last_skip c hmid,
      pyReplace_spaces_left _ _ ['└', '─'] [' '] '└' rfl (by decide),
      pyReplace_branch_last c hlast,
      pyReplace_self _ ' ']
    refine ⟨List.replicate (4 * j) ' ' ++ [' ', ' '], ?_, by simp⟩
    intro a ha
    rcases List.mem_append.mp ha with h | h
    · exact hsp a h
    · fin_cases h <;> decide
  · have hbar2 : '｜' ∉ BRANCH_MID ++ c := by
      simp only [List.mem_append]
      rintro (h | h)
      · revert h; decide
      · exact hbar h
    rw [List.append_assoc, pyReplace_repPre j _ hbar2,
      pyReplace_spaces_left _ _ ['├', '─'] [' '] '├' rfl (by decide),
      pyReplace_branch_mid c hmid,
      pyReplace_spaces_left _ _ ['└', '─'] [' '] '└' rfl (by decide),
      pyReplace_spaces2_skip c hlast,
      pyReplace_self _ ' ']
    refine ⟨List.replicate (4 * j) ' ' ++ [' ', ' '], ?_, by simp⟩
    intro a ha
    rcases List.mem_append.mp ha with h | h
    · exact hsp a h
    · fin_cases h <;> decide

theorem extract_character_roundtrip (p c : Str) (hp : PrefixOK p)
    (herr : is_error_message c = false) (hws : ∀ a ∈ c, pyIsSpace a = false)
    (hbar : '｜' ∉ c) (hmid : pyInStr ['├', '─'] c = false)
    (hlast : pyInStr ['└', '─'] c = false) :
    extract_character (p ++ c) = some c := by
  obtain ⟨hc0, hcstrip⟩ := is_error_message_nonempty c herr
  have hinds := is_error_message_no_ind c herr
  have hpal := prefix_ok_chars p hp
  obtain ⟨c0, c', rfl⟩ : ∃ c0 c', c = c0 :: c' := by
    cases c with
    | nil => exact absurd rfl hc0
    | cons a b => exact ⟨a, b, rfl⟩
  have hws0 : pyIsSpace c0 = false := hws c0 (by simp)
  have htextne : p ++ c0 :: c' ≠ [] := by simp
  have hstripne : pyStrip (p ++ c0 :: c') ≠ [] := pyStrip_ne_nil _ c0 (by simp) hws0
  have hmark : pyInStr DEPTH_MARK (p ++ c0 :: c') = false := by
    by_contra hcon
    rw [Bool.not_eq_false] at hcon
    have h2 : pyInStr ['(', '達', '到', '最', '大', '深', '度', ')'] (p ++ c0 :: c') = true :=
      pyInStr_tail ' ' _ _ hcon
    have h3 : pyInStr ['(', '達', '到', '最', '大', '深', '度', ')'] (c0 :: c') = true :=
      pyInStr_append_right_of_head_notin ['(', '達', '到', '最', '大', '深', '度', ')']
        '(' rfl p _
        (fun a ha heq => by
          rcases hpal a ha with rfl | rfl | rfl | rfl | rfl <;> exact absurd heq (by decide))
        h2
    have h4 := hinds ['(', '達', '到', '最', '大', '深', '度', ')'] (by simp [errorIndicators])
    rw [h4] at h3
    exact Bool.noConfusion h3
  have herrtext : is_error_message (p ++ c0 :: c') = false := by
    refine is_error_message_intro _ htextne hstripne ?_
    intro ind hind
    by_contra hcon
    rw [Bool.not_eq_false] at hcon
    have hfalse := hinds ind hind
    have hx : ∀ hch : Char, ind.head? = some hch →
        hch ≠ '｜' → hch ≠ ' ' → hch ≠ '└' → hch ≠ '├' → hch ≠ '─' →
        pyInStr ind (c0 :: c') = true := by
      intro hch hhead hn1 hn2 hn3 hn4 hn5
      refine pyInStr_append_right_of_head_notin ind hch hhead p _ ?_ hcon
      intro a ha heq
      rcases hpal a ha with rfl | rfl | rfl | rfl | rfl
      exacts [hn1 heq.symm, hn2 heq.symm, hn3 heq.symm, hn4 heq.symm, hn5 heq.symm]
    simp only [errorIndicators, ERROR_NO_MATCH_FOUND, ERROR_UNKNOWN_CHAR,
      ERROR_SEARCH_FAILED, List.mem_cons, List.not_mem_nil, or_false] at hind
    rcases hind with rfl | rfl | rfl | rfl | rfl | rfl | rfl | rfl
    · rw [hx '未' rfl (by decide) (by decide) (by decide) (by decide) (by decide)] at hfalse
      exact Bool.noConfusion hfalse
    · rw [hx '未' rfl (by decide) (by decide) (by decide) (by decide) (by decide)] at hfalse
      exact Bool.noConfusion hfalse
    · rw [hx '搜' rfl (by decide) (by decide) (by decide) (by decide) (by decide)] at hfalse
      exact Bool.noConfusion hfalse
    · rw [hx '未' rfl (by decide) (by decide) (by decide) (by decide) (by decide)] at hfalse
      exact Bool.noConfusion hfalse
    · rw [hx '無' rfl (by decide) (by decide) (by decide) (by decide) (by decide)] at hfalse
      exact Bool.noConfusion hfalse
    · rw [hx '錯' rfl (by decide) (by decide) (by decide) (by decide) (by decide)] at hfalse
      exact Bool.noConfusion hfalse
    · rw [hx '(' rfl (by decide) (by decide) (by decide) (by decide) (by decide)] at hfalse
      exact Bool.noConfusion hfalse
    · rw [hx '達' rfl (by decide) (by decide) (by decide) (by decide) (by decide)] at hfalse
      exact Bool.noConfusion hfalse
  obtain ⟨sp, hspall, hcleq⟩ := cleaned_split p (c0 :: c') hp hbar hmid hlast
  unfold extract_character
  rw [if_neg (by simp [htextne, hstripne])]
  simp only [hmark, Bool.false_eq_true, if_false]
  rw [if_neg (by simp [herrtext])]
  rw [hcleq, pySplit_space_prefix sp _ hspall,
    pySplit_single_word c0 c' hws0 (fun a ha => hws a (by simp [ha]))]
  simp only [List.map_cons, List.map_nil]
  rw [pyStrip_no_space (c0 :: c') hws]
  have hfil : (([c0 :: c'] : List Str).filter (fun q => q ≠ [])) = [c0 :: c'] := by
    simp
  rw [hfil]
  simp only [List.getLast?_singleton]
  rw [if_pos (by simp [herr])]

/-- C8 (amended): for every entry (prefix, content) of `decompose` whose
content is not classified as an error/depth-limit marker by
`is_error_message` and contains no whitespace and no tree-drawing glyphs
(`｜`, `├─`, `└─`), `extract_character` applied to the rendered display
string recovers exactly the content.  (Contents containing whitespace —
possible only inside `&…;` entity tokens — or tree-drawing characters are
genuinely mangled; see the counterexample.) -/
theorem C8_extract_roundtrip (db : Db) (ch : Str) (k : Nat) (vi : Int) (p c : Str)
    (hmem : (p, c) ∈ decompose db ch k vi) (herr : is_error_message c = false)
    (hws : ∀ a ∈ c, pyIsSpace a = false) (hbar : '｜' ∉ c)
    (hmid : pyInStr ['├', '─'] c = false) (hlast : pyInStr ['└', '─'] c = false) :
    extract_character (p ++ c) = some c :=
  extract_character_roundtrip p c (decompose_prefix_ok db ch k vi (p, c) hmem) herr hws
    hbar hmid hlast

theorem decompose_dbLin_lin :
    decompose dbLin ['林'] 1 0 =
      [([], ['林']), ([], ['⿰']), (BRANCH_MID, ['木']), (BRANCH_LAST, ['木'])] := by
  simp +decide [decompose, decomposeRecur, decomposeIdsList, decomposeComps, dbLin,
    recNone, recLin, dbGet, List.find?, idsSelection, IDC_LIST, leafPre, repPre,
    split_special_chars, takeEntity, splitAtSemi, isIDC, pyIsSpace, pyInStr,
    strStartsWith, BRANCH_LAST, BRANCH_MID, SEP_OR]

/-- Witness for C8 at the 木 leaf of `decompose(林, 1)` over `dbLin`. -/
theorem C8_extract_roundtrip_witness :
    extract_character (BRANCH_LAST ++ ['木']) = some ['木'] :=
  C8_extract_roundtrip dbLin ['林'] 1 0 BRANCH_LAST ['木']
    (by rw [decompose_dbLin_lin]; simp) (by decide) (by decide) (by decide)
    (by decide) (by decide)

/-- 「X = ⿰Y&a b;」: an IDS containing an entity reference with an inner
space. -/
def recEnt : CharRec := ⟨[], ['⿰', 'Y', '&', 'a', ' ', 'b', ';'], []⟩
def dbEnt : Db := [(['X'], recEnt)]

/-- Counterexample to C8 as stated: the non-error leaf content `"&a b;"`
(an entity token containing a space) is produced by `decompose`, but
`extract_character` on the rendered line returns only `"b;"`. -/
theorem C8_counterexample :
    (BRANCH_LAST, ['&', 'a', ' ', 'b', ';']) ∈ decompose dbEnt ['X'] 2 0 ∧
    is_error_message ['&', 'a', ' ', 'b', ';'] = false ∧
    extract_character (BRANCH_LAST ++ ['&', 'a', ' ', 'b', ';']) = some ['b', ';'] ∧
    some (['b', ';'] : Str) ≠ some (['&', 'a', ' ', 'b', ';'] : Str) := by
  refine ⟨?_, by decide, ?_, by decide⟩
  · have hd : decompose dbEnt ['X'] 2 0 =
        [([], ['X']), ([], ['⿰']), (BRANCH_MID, ['Y']),
         (BRANCH_LAST, ['&', 'a', ' ', 'b', ';'])] := by
      simp +decide [decompose, decomposeRecur, decomposeIdsList, decomposeComps, dbEnt,
        recEnt, dbGet, List.find?, idsSelection, IDC_LIST, leafPre, repPre,
        split_special_chars, takeEntity, splitAtSemi, isIDC, pyIsSpace, pyInStr,
        strStartsWith, BRANCH_LAST, BRANCH_MID, SEP_OR]
    rw [hd]
    simp
  · simp +decide [extract_character, pyReplace, pyStrip, pySplit, takeNonSpace,
      pyIsSpace, pyInStr, strStartsWith, is_error_message, errorIndicators,
      ERROR_NO_MATCH_FOUND, ERROR_UNKNOWN_CHAR, ERROR_SEARCH_FAILED, DEPTH_MARK,
      BRANCH_LAST]
